import Mathlib

/-!
Verification of the HMM sampling notebook (`HMM basics.ipynb`).

The notebook defines three probability tables (`initial`, `transition`,
`emission`), label/index mappings (`state2id`, `id2word`), and a function
`generate` that samples a latent-state trajectory `h_total` and an aligned
observation trajectory `v_total` from the HMM until the terminal state
`<EOS>` is reached.

Probabilities are embedded as rationals (the decimal literals of the
notebook are exact in `ℚ`).  The random source `np.random.choice` is
embedded as an explicit `Sampler`: a function receiving the index of the
draw (draws are consumed sequentially) and the probability vector, and
returning the chosen index.  The unbounded `while` loop of `generate` is
embedded with a fuel parameter; a run that returns `GenResult.ok` is a
terminating call of the Python function.
-/

namespace HMMBasics

/-- `initial = [0.7, 0.3, 0., 0., 0., 0.]` from the notebook. -/
def initial : List ℚ := [0.7, 0.3, 0, 0, 0, 0]

/-- The 5×6 `transition` table from the notebook (rows: Subject, Adjective,
Adverb, Verb, Object; the `<EOS>` state has no row). -/
def transition : List (List ℚ) :=
  [[0, 0, 0.3, 0.7, 0, 0],
   [0.4, 0.1, 0, 0, 0.5, 0],
   [0, 0.3, 0, 0.7, 0, 0],
   [0, 0.3, 0.2, 0, 0.5, 0],
   [0, 0, 0, 0, 0, 1]]

/-- The 6×15 `emission` table from the notebook (rows: Subject, Adjective,
Adverb, Verb, Object, `<EOS>`; columns: the 15 words). -/
def emission : List (List ℚ) :=
  [[0.2, 0.2, 0.2, 0.2, 0, 0, 0, 0, 0, 0, 0, 0, 0.1, 0.1, 0],
   [0, 0, 0, 0, 0, 0, 0, 0, 0, 0.5, 0.25, 0.25, 0, 0, 0],
   [0, 0, 0, 0, 0, 0, 0, 0.25, 0.25, 0.5, 0, 0, 0, 0, 0],
   [0, 0, 0, 0, 0.3, 0.4, 0.3, 0, 0, 0, 0, 0, 0, 0, 0],
   [0, 0, 0.2, 0.2, 0, 0, 0, 0, 0, 0, 0, 0, 0.3, 0.3, 0],
   [0, 0, 0, 0, 0, 0, 0, 0, 0, 0, 0, 0, 0, 0, 1]]

/-- The label of the terminal state in `id2state` / `state2id`. -/
def eosLabel : String := "<EOS>"

/-- `state2id` from the notebook: `{'Subject': 0, 'Adjective': 1, 'Adverb': 2,
'Verb': 3, 'Object': 4, '<EOS>': 5}` (inverse of `id2state`). -/
def state2id : String → Nat
  | "Subject" => 0
  | "Adjective" => 1
  | "Adverb" => 2
  | "Verb" => 3
  | "Object" => 4
  | _ => 5

/-- `id2word` from the notebook: inverse of
`word2id = {'I': 0, 'He': 1, 'Jack': 2, 'Mary': 3, 'likes': 4, 'loves': 5,
'hates': 6, 'really': 7, 'extremely': 8, 'pretty': 9, 'cute': 10,
'adorable': 11, 'cats': 12, 'dogs': 13, '.': 14}`. -/
def id2word : Nat → String
  | 0 => "I"
  | 1 => "He"
  | 2 => "Jack"
  | 3 => "Mary"
  | 4 => "likes"
  | 5 => "loves"
  | 6 => "hates"
  | 7 => "really"
  | 8 => "extremely"
  | 9 => "pretty"
  | 10 => "cute"
  | 11 => "adorable"
  | 12 => "cats"
  | 13 => "dogs"
  | _ => "."

/-- The random source: the `t`-th call of `np.random.choice(n, p=p)` in a run
returns `s t p`.  (The first argument `n` of `np.random.choice` is the length
of `p` for every call in the notebook, so it is not modelled separately.) -/
abbrev Sampler : Type := Nat → List ℚ → Nat

/-- Result of a `generate` run.  `ok h_total v_total` is a terminating call;
`emisOOB` / `transOOB` model a numpy `IndexError` on `emission[h]` /
`transition[h]`; `fuelOut` means the fuel bound was hit (the Python loop
would still be running). -/
inductive GenResult
  | ok (h_total v_total : List Nat)
  | emisOOB
  | transOOB
  | fuelOut
deriving DecidableEq

/-- The `while` loop of `generate`, from the state `h` onwards (the current
state `h` has already been appended to `h_total`; `t` is the index of the
next draw).  Each loop iteration of the Python code draws
`v = np.random.choice(num_words, p=emission[h])`, appends it to `v_total`,
draws `h2 = np.random.choice(num_states, p=transition[h])`, appends it to
`h_total`, and continues; on loop exit (`h == state2id['<EOS>']`) one final
`v = np.random.choice(num_words, p=emission[h])` is drawn and appended.
Here the lists are built by consing the contribution of the iteration onto
the recursively generated remainder, which yields the same lists as the
Python appends. -/
def genFrom (T E : List (List ℚ)) (s : Sampler) : Nat → Nat → Nat → GenResult
  | 0, _, _ => .fuelOut
  | Nat.succ fuel, t, h =>
    if h = state2id eosLabel then
      if h < E.length then .ok [h] [s t (E.getD h [])] else .emisOOB
    else
      if h < E.length then
        if h < T.length then
          match genFrom T E s fuel (t + 2) (s (t + 1) (T.getD h [])) with
          | .ok hs vs => .ok (h :: hs) (s t (E.getD h []) :: vs)
          | r => r
        else .transOOB
      else .emisOOB

/-- `generate(initial, transition, emission)` from the notebook: draw the
first state `h = np.random.choice(num_states, p=initial)`, start
`h_total = [h]`, `v_total = []`, and run the loop. -/
def generate (ini : List ℚ) (T E : List (List ℚ)) (s : Sampler) (fuel : Nat) :
    GenResult :=
  genFrom T E s fuel 1 (s 0 ini)

/-- A scripted random source: the `t`-th draw returns the `t`-th entry of the
script, ignoring the probability vector. -/
def scripted (d : List Nat) : Sampler := fun t _ => d.getD t 0

/-- A sampler respects the supplied probability vector: whenever the vector
has a positive entry at all, the returned index carries positive
probability (in particular it is in bounds).  This is the hypothesis that
the categorical sampler only returns indices of positive probability. -/
def PosSampler (s : Sampler) : Prop :=
  ∀ (t : Nat) (p : List ℚ), (∃ i, 0 < p.getD i 0) → 0 < p.getD (s t p) 0

/-- A sampler that follows a script whenever the scripted index has positive
probability, and falls back to the first positive entry otherwise.  It is a
`PosSampler` for every script. -/
def hintedSampler (d : List Nat) : Sampler := fun t p =>
  if 0 < p.getD (d.getD t 0) 0 then d.getD t 0
  else p.findIdx (fun x => decide (0 < x))

/-! ### Kernel-normal forms of the tables

`Rat` addition and the scientific-notation literals are irreducible for the
kernel, so for `decide`-style evaluation we provide the same tables written
with `mkRat`, together with proofs that they are equal to the notebook
tables. -/

/-- `initial` with entries in `mkRat` normal form (same values). -/
def initialR : List ℚ := [mkRat 7 10, mkRat 3 10, 0, 0, 0, 0]

/-- `transition` with entries in `mkRat` normal form (same values). -/
def transitionR : List (List ℚ) :=
  [[0, 0, mkRat 3 10, mkRat 7 10, 0, 0],
   [mkRat 2 5, mkRat 1 10, 0, 0, mkRat 1 2, 0],
   [0, mkRat 3 10, 0, mkRat 7 10, 0, 0],
   [0, mkRat 3 10, mkRat 1 5, 0, mkRat 1 2, 0],
   [0, 0, 0, 0, 0, 1]]

/-- `emission` with entries in `mkRat` normal form (same values). -/
def emissionR : List (List ℚ) :=
  [[mkRat 1 5, mkRat 1 5, mkRat 1 5, mkRat 1 5, 0, 0, 0, 0, 0, 0, 0, 0,
    mkRat 1 10, mkRat 1 10, 0],
   [0, 0, 0, 0, 0, 0, 0, 0, 0, mkRat 1 2, mkRat 1 4, mkRat 1 4, 0, 0, 0],
   [0, 0, 0, 0, 0, 0, 0, mkRat 1 4, mkRat 1 4, mkRat 1 2, 0, 0, 0, 0, 0],
   [0, 0, 0, 0, mkRat 3 10, mkRat 2 5, mkRat 3 10, 0, 0, 0, 0, 0, 0, 0, 0],
   [0, 0, mkRat 1 5, mkRat 1 5, 0, 0, 0, 0, 0, 0, 0, 0, mkRat 3 10,
    mkRat 3 10, 0],
   [0, 0, 0, 0, 0, 0, 0, 0, 0, 0, 0, 0, 0, 0, 1]]

theorem initial_eq : initial = initialR := by
  norm_num [initial, initialR, mkRat, Rat.normalize]

theorem transition_eq : transition = transitionR := by
  norm_num [transition, transitionR, mkRat, Rat.normalize]

theorem emission_eq : emission = emissionR := by
  norm_num [emission, emissionR, mkRat, Rat.normalize]

/-! ### Facts about the concrete tables -/

theorem initial_has_pos : ∃ i, 0 < initial.getD i 0 := by
  rw [initial_eq]; exact ⟨0, by decide⟩

theorem initial_len : initial.length = 6 := rfl

theorem initial_pos_lt : ∀ i, 0 < initial.getD i 0 → i < 6 := by
  rw [initial_eq]
  intro i hi
  by_contra hc
  rw [List.getD_eq_default _ _ (by simp [initialR]; omega)] at hi
  exact lt_irrefl 0 hi

theorem emis_len : ∀ h, h < 6 → (emission.getD h []).length = 15 := by
  rw [emission_eq]; decide

theorem emis_has_pos : ∀ h, h < 6 → ∃ i, 0 < (emission.getD h []).getD i 0 := by
  rw [emission_eq]
  intro h hh
  have : ∀ h, h < 6 → ∃ i, i < 15 ∧ 0 < (emissionR.getD h []).getD i 0 := by
    decide
  obtain ⟨i, _, hi⟩ := this h hh
  exact ⟨i, hi⟩

theorem trans_len : ∀ h, h < 5 → (transition.getD h []).length = 6 := by
  rw [transition_eq]; decide

theorem trans_has_pos : ∀ h, h < 5 → ∃ i, 0 < (transition.getD h []).getD i 0 := by
  rw [transition_eq]
  intro h hh
  have : ∀ h, h < 5 → ∃ i, i < 6 ∧ 0 < (transitionR.getD h []).getD i 0 := by
    decide
  obtain ⟨i, _, hi⟩ := this h hh
  exact ⟨i, hi⟩

/-- A positive entry of a list is within its length. -/
theorem pos_getD_lt {p : List ℚ} {i : Nat} (h : 0 < p.getD i 0) : i < p.length := by
  by_contra hc
  rw [List.getD_eq_default _ _ (Nat.le_of_not_lt hc)] at h
  exact lt_irrefl 0 h

theorem posSampler_hinted (d : List Nat) : PosSampler (hintedSampler d) := by
  intro t p hp
  unfold hintedSampler
  split
  · assumption
  · obtain ⟨i, hi⟩ := hp
    have hlen : i < p.length := pos_getD_lt hi
    have hex : ∃ x ∈ p, (fun x => decide (0 < x)) x = true := by
      refine ⟨p[i], List.getElem_mem _, ?_⟩
      simp only [decide_eq_true_eq]
      rw [List.getD_eq_getElem p 0 hlen] at hi
      exact hi
    have hflt := List.findIdx_lt_length_of_exists hex
    rw [List.getD_eq_getElem p 0 hflt]
    exact of_decide_eq_true (List.findIdx_getElem (w := hflt))

/-- Structural facts about any terminating `generate` loop, for arbitrary
tables and samplers: the two lists have equal positive length, the first
state of the remainder is the state the loop was entered with, and every
observation is a draw of the sampler on the emission row of the state it is
aligned with. -/
theorem genFrom_shape (T E : List (List ℚ)) (s : Sampler) :
    ∀ fuel t h hs vs, genFrom T E s fuel t h = .ok hs vs →
      hs.length = vs.length ∧ 0 < hs.length ∧ hs.getD 0 0 = h ∧
      (∀ i, i < vs.length → ∃ u, vs.getD i 0 = s u (E.getD (hs.getD i 0) [])) := by
  intro fuel
  induction fuel with
  | zero => intro t h hs vs heq; simp [genFrom] at heq
  | succ fuel ih =>
    intro t h hs vs heq
    rw [genFrom] at heq
    by_cases hc : h = state2id eosLabel
    · rw [if_pos hc] at heq
      by_cases hEl : h < E.length
      · rw [if_pos hEl] at heq
        cases heq
        refine ⟨rfl, by simp, rfl, ?_⟩
        intro i hi
        have hi0 : i = 0 := by simp at hi; omega
        subst hi0
        exact ⟨t, by simp⟩
      · rw [if_neg hEl] at heq; simp at heq
    · rw [if_neg hc] at heq
      by_cases hEl : h < E.length
      · rw [if_pos hEl] at heq
        by_cases hTl : h < T.length
        · rw [if_pos hTl] at heq
          cases hR : genFrom T E s fuel (t + 2) (s (t + 1) (T.getD h [])) with
          | ok hs2 vs2 =>
            rw [hR] at heq
            cases heq
            obtain ⟨l1, l2, l3, l4⟩ := ih (t + 2) (s (t + 1) (T.getD h [])) hs2 vs2 hR
            refine ⟨by simp [l1], by simp, by simp, ?_⟩
            intro i hi
            cases i with
            | zero => exact ⟨t, by simp⟩
            | succ j =>
              simp only [List.getD_cons_succ]
              exact l4 j (by simpa using hi)
          | emisOOB => rw [hR] at heq; simp at heq
          | transOOB => rw [hR] at heq; simp at heq
          | fuelOut => rw [hR] at heq; simp at heq
        · rw [if_neg hTl] at heq; simp at heq
      · rw [if_neg hEl] at heq; simp at heq

/-- Master invariant of the sampling loop on the notebook tables, under the
hypothesis that the sampler only returns indices of positive probability:
a terminating run from a valid state `h` ends exactly at the terminal state
`5`, visits only valid state indices, emits only valid observation indices,
and every emission / transition taken has positive probability. -/
theorem genFrom_master (s : Sampler) (hps : PosSampler s) :
    ∀ fuel t h hs vs, h < 6 →
      genFrom transition emission s fuel t h = .ok hs vs →
      hs.getD (hs.length - 1) 0 = 5 ∧
      (∀ i, i + 1 < hs.length → hs.getD i 0 ≠ 5) ∧
      (∀ i, i < hs.length → hs.getD i 0 < 6) ∧
      (∀ i, i < vs.length → vs.getD i 0 < 15) ∧
      (∀ i, i < vs.length →
        0 < (emission.getD (hs.getD i 0) []).getD (vs.getD i 0) 0) ∧
      (∀ i, i + 1 < hs.length →
        0 < (transition.getD (hs.getD i 0) []).getD (hs.getD (i + 1) 0) 0) := by
  intro fuel
  induction fuel with
  | zero => intro t h hs vs hh heq; simp [genFrom] at heq
  | succ fuel ih =>
    intro t h hs vs hh heq
    rw [genFrom] at heq
    have heos : state2id eosLabel = 5 := rfl
    by_cases hc : h = state2id eosLabel
    · rw [if_pos hc] at heq
      rw [heos] at hc; subst hc
      rw [if_pos (by decide : (5:Nat) < emission.length)] at heq
      cases heq
      have hrow := emis_has_pos 5 (by omega)
      have hv := hps t (emission.getD 5 []) hrow
      have hvlt : s t (emission.getD 5 []) < 15 := by
        have := pos_getD_lt hv; rwa [emis_len 5 (by omega)] at this
      refine ⟨rfl, ?_, ?_, ?_, ?_, ?_⟩
      · intro i hi; simp at hi
      · intro i hi
        have : i = 0 := by simp at hi; omega
        subst this; decide
      · intro i hi
        have : i = 0 := by simp at hi; omega
        subst this; simpa using hvlt
      · intro i hi
        have : i = 0 := by simp at hi; omega
        subst this; simpa using hv
      · intro i hi; simp at hi
    · rw [if_neg hc] at heq
      rw [heos] at hc
      have hh5 : h < 5 := by omega
      rw [if_pos (show h < emission.length by
        have : emission.length = 6 := rfl; omega)] at heq
      rw [if_pos (show h < transition.length by
        have : transition.length = 5 := rfl; omega)] at heq
      cases hR : genFrom transition emission s fuel (t + 2)
          (s (t + 1) (transition.getD h [])) with
      | ok hs2 vs2 =>
        rw [hR] at heq
        cases heq
        have htrow := trans_has_pos h hh5
        have hh2pos := hps (t + 1) (transition.getD h []) htrow
        have hh2 : s (t + 1) (transition.getD h []) < 6 := by
          have := pos_getD_lt hh2pos; rwa [trans_len h hh5] at this
        obtain ⟨m1, m2, m3, m4, m5, m6⟩ := ih (t + 2) _ hs2 vs2 hh2 hR
        obtain ⟨s1, s2, s3, s4⟩ :=
          genFrom_shape transition emission s fuel (t + 2) _ hs2 vs2 hR
        have herow := emis_has_pos h hh
        have hvpos := hps t (emission.getD h []) herow
        have hvlt : s t (emission.getD h []) < 15 := by
          have := pos_getD_lt hvpos; rwa [emis_len h hh] at this
        refine ⟨?_, ?_, ?_, ?_, ?_, ?_⟩
        · have hlen : (h :: hs2).length - 1 = (hs2.length - 1) + 1 := by
            simp; omega
          rw [hlen, List.getD_cons_succ]; exact m1
        · intro i hi
          cases i with
          | zero => simpa using hc
          | succ j =>
            rw [List.getD_cons_succ]
            exact m2 j (by simp at hi; omega)
        · intro i hi
          cases i with
          | zero => simpa using hh
          | succ j =>
            rw [List.getD_cons_succ]
            exact m3 j (by simp at hi; omega)
        · intro i hi
          cases i with
          | zero => simpa using hvlt
          | succ j =>
            rw [List.getD_cons_succ]
            exact m4 j (by simp at hi; omega)
        · intro i hi
          cases i with
          | zero => simpa using hvpos
          | succ j =>
            rw [List.getD_cons_succ, List.getD_cons_succ]
            exact m5 j (by simp at hi; omega)
        · intro i hi
          cases i with
          | zero =>
            rw [List.getD_cons_zero, show (1:Nat) = 0 + 1 from rfl,
              List.getD_cons_succ, s3]
            exact hh2pos
          | succ j =>
            rw [List.getD_cons_succ, List.getD_cons_succ]
            exact m6 j (by simp at hi; omega)
      | emisOOB => rw [hR] at heq; simp at heq
      | transOOB => rw [hR] at heq; simp at heq
      | fuelOut => rw [hR] at heq; simp at heq

/-- The generation algorithm exactly as the spec words it (§4.2), as a
trajectory of (state, observation) pairs: draw an observation from
`emission[current_state]` and append the pair; if the current state is the
terminal index, stop; otherwise draw the next state from
`transition[current_state]` and continue.  (The initial state was drawn
from `initial` beforehand; draws are consumed in the same sequential
order.) -/
def genSpecFrom (T E : List (List ℚ)) (k : Nat) (s : Sampler) :
    Nat → Nat → Nat → Option (List (Nat × Nat))
  | 0, _, _ => none
  | Nat.succ fuel, t, h =>
    if h = k then some [(h, s t (E.getD h []))]
    else
      (genSpecFrom T E k s fuel (t + 2) (s (t + 1) (T.getD h []))).map
        (fun rest => (h, s t (E.getD h [])) :: rest)

/-- Step 1 of the spec algorithm: draw the first state by a categorical draw
over `initial`, then run the loop. -/
def generateSpec (ini : List ℚ) (T E : List (List ℚ)) (k : Nat) (s : Sampler)
    (fuel : Nat) : Option (List (Nat × Nat)) :=
  genSpecFrom T E k s fuel 1 (s 0 ini)

/-- Refinement: a terminating run of the notebook loop produces exactly the
trajectory the spec algorithm describes (the zip of the two returned
lists), with the terminal index `state2id '<EOS>' = 5`. -/
theorem genFrom_refines (T E : List (List ℚ)) (s : Sampler) :
    ∀ fuel t h hs vs, genFrom T E s fuel t h = .ok hs vs →
      genSpecFrom T E (state2id eosLabel) s fuel t h = some (hs.zip vs) := by
  intro fuel
  induction fuel with
  | zero => intro t h hs vs heq; simp [genFrom] at heq
  | succ fuel ih =>
    intro t h hs vs heq
    rw [genFrom] at heq
    rw [genSpecFrom]
    by_cases hc : h = state2id eosLabel
    · rw [if_pos hc] at heq
      rw [if_pos hc]
      by_cases hEl : h < E.length
      · rw [if_pos hEl] at heq; cases heq; rfl
      · rw [if_neg hEl] at heq; simp at heq
    · rw [if_neg hc] at heq
      rw [if_neg hc]
      by_cases hEl : h < E.length
      · rw [if_pos hEl] at heq
        by_cases hTl : h < T.length
        · rw [if_pos hTl] at heq
          cases hR : genFrom T E s fuel (t + 2)
              (s (t + 1) (T.getD h [])) with
          | ok hs2 vs2 =>
            rw [hR] at heq
            cases heq
            rw [ih (t + 2) _ hs2 vs2 hR]
            rfl
          | emisOOB => rw [hR] at heq; simp at heq
          | transOOB => rw [hR] at heq; simp at heq
          | fuelOut => rw [hR] at heq; simp at heq
        · rw [if_neg hTl] at heq; simp at heq
      · rw [if_neg hEl] at heq; simp at heq

/-- Two samplers that produce the identical draws produce identical loop
results, for any tables. -/
theorem genFrom_congr (T E : List (List ℚ)) (s1 s2 : Sampler)
    (hse : ∀ (t : Nat) (p : List ℚ), s1 t p = s2 t p) :
    ∀ fuel t h, genFrom T E s1 fuel t h = genFrom T E s2 fuel t h := by
  intro fuel
  induction fuel with
  | zero => intro t h; rfl
  | succ fuel ih =>
    intro t h
    rw [genFrom, genFrom]
    by_cases hc : h = state2id eosLabel
    · rw [if_pos hc, if_pos hc]
      by_cases hEl : h < E.length
      · rw [if_pos hEl, if_pos hEl, hse]
      · rw [if_neg hEl, if_neg hEl]
    · rw [if_neg hc, if_neg hc]
      by_cases hEl : h < E.length
      · rw [if_pos hEl, if_pos hEl]
        by_cases hTl : h < T.length
        · rw [if_pos hTl, if_pos hTl, hse, hse, ih]
        · rw [if_neg hTl, if_neg hTl]
      · rw [if_neg hEl, if_neg hEl]

/-- On the notebook tables, the loop never reads `transition` out of bounds
when started from a valid state index: `transition[h]` is only evaluated
under the loop guard `h ≠ 5`, and a positivity-respecting sampler keeps
`h < 6`, so `h < 5 = transition.length`. -/
theorem genFrom_no_transOOB (s : Sampler) (hps : PosSampler s) :
    ∀ fuel t h, h < 6 →
      genFrom transition emission s fuel t h ≠ .transOOB := by
  intro fuel
  induction fuel with
  | zero => intro t h hh; simp [genFrom]
  | succ fuel ih =>
    intro t h hh
    rw [genFrom]
    have heos : state2id eosLabel = 5 := rfl
    by_cases hc : h = state2id eosLabel
    · rw [if_pos hc]
      split <;> simp
    · rw [if_neg hc]
      rw [heos] at hc
      have hh5 : h < 5 := by omega
      rw [if_pos (show h < emission.length by
        have : emission.length = 6 := rfl; omega)]
      rw [if_pos (show h < transition.length by
        have : transition.length = 5 := rfl; omega)]
      have hh2 : s (t + 1) (transition.getD h []) < 6 := by
        have hpos := hps (t + 1) (transition.getD h []) (trans_has_pos h hh5)
        have := pos_getD_lt hpos
        rwa [trans_len h hh5] at this
      cases hR : genFrom transition emission s fuel (t + 2)
          (s (t + 1) (transition.getD h [])) with
      | ok hs vs => simp
      | emisOOB => simp
      | transOOB => exact absurd hR (ih (t + 2) _ hh2)
      | fuelOut => simp

/-- The separator of `' '.join(...)` in the notebook. -/
def spaceSep : String := " "

/-- `' '.join([id2word[v] for v in v_total])` from the notebook. -/
def render (vs : List Nat) : String :=
  String.intercalate spaceSep (vs.map id2word)

/-- The numerical tolerance of invariant I1 (`1e-6`). -/
def tol : ℚ := mkRat 1 1000000

/-- The first state drawn from `initial` by a positivity-respecting sampler
is a valid state index. -/
theorem first_state_lt (s : Sampler) (hps : PosSampler s) : s 0 initial < 6 := by
  have hpos := hps 0 initial initial_has_pos
  have := pos_getD_lt hpos
  rwa [initial_len] at this

/-! ### Claims about the sequence generator -/

/-- C1: every terminating call of `generate` under a positivity-respecting
sampler returns a state sequence whose last element is the terminal index 5
(`<EOS>`), with no earlier element equal to 5, all state indices valid for
the 6-state alphabet and all observation indices valid for the 15-word
alphabet. -/
theorem C1_trajectory_wellformed (s : Sampler) (fuel : Nat)
    (hs vs : List Nat) (hps : PosSampler s)
    (hok : generate initial transition emission s fuel = .ok hs vs) :
    hs.getD (hs.length - 1) 0 = 5 ∧
    (∀ i, i + 1 < hs.length → hs.getD i 0 ≠ 5) ∧
    (∀ i, i < hs.length → hs.getD i 0 < 6) ∧
    (∀ i, i < vs.length → vs.getD i 0 < 15) := by
  obtain ⟨m1, m2, m3, m4, _, _⟩ :=
    genFrom_master s hps fuel 1 _ hs vs (first_state_lt s hps) hok
  exact ⟨m1, m2, m3, m4⟩

theorem C1_witness :
    (PosSampler (hintedSampler [0, 0, 3, 4, 4, 13, 5, 14]) ∧
      generate initial transition emission
        (hintedSampler [0, 0, 3, 4, 4, 13, 5, 14]) 8 =
        .ok [0, 3, 4, 5] [0, 4, 13, 14]) ∧
    (([0, 3, 4, 5] : List Nat).getD (([0, 3, 4, 5] : List Nat).length - 1) 0 = 5 ∧
     (∀ i, i + 1 < ([0, 3, 4, 5] : List Nat).length →
       ([0, 3, 4, 5] : List Nat).getD i 0 ≠ 5) ∧
     (∀ i, i < ([0, 3, 4, 5] : List Nat).length →
       ([0, 3, 4, 5] : List Nat).getD i 0 < 6) ∧
     (∀ i, i < ([0, 4, 13, 14] : List Nat).length →
       ([0, 4, 13, 14] : List Nat).getD i 0 < 15)) := by
  have hgen : generate initial transition emission
      (hintedSampler [0, 0, 3, 4, 4, 13, 5, 14]) 8 =
      .ok [0, 3, 4, 5] [0, 4, 13, 14] := by
    rw [initial_eq, transition_eq, emission_eq]; decide
  exact ⟨⟨posSampler_hinted _, hgen⟩,
    C1_trajectory_wellformed _ 8 _ _ (posSampler_hinted _) hgen⟩

/-- C2: `generate` follows the spec's algorithm: a terminating call produces
exactly the trajectory of (state, observation) pairs that the spec's loop
(draw observation from `emission[current_state]`, append the pair, stop at
the terminal index, else draw the next state from
`transition[current_state]`) produces from the same draws, and the `i`-th
observation is a draw of the sampler on the emission row of the `i`-th
state. -/
theorem C2_follows_spec_algorithm (ini : List ℚ) (T E : List (List ℚ))
    (s : Sampler) (fuel : Nat) (hs vs : List Nat)
    (hok : generate ini T E s fuel = .ok hs vs) :
    generateSpec ini T E (state2id eosLabel) s fuel = some (hs.zip vs) ∧
    (∀ i, i < vs.length → ∃ u, vs.getD i 0 = s u (E.getD (hs.getD i 0) [])) :=
  ⟨genFrom_refines T E s fuel 1 _ hs vs hok,
   (genFrom_shape T E s fuel 1 _ hs vs hok).2.2.2⟩

theorem C2_witness :
    generate initial transition emission (scripted [0, 0, 3, 4, 4, 13, 5, 14]) 8 =
      .ok [0, 3, 4, 5] [0, 4, 13, 14] ∧
    (generateSpec initial transition emission (state2id eosLabel)
        (scripted [0, 0, 3, 4, 4, 13, 5, 14]) 8 =
      some (([0, 3, 4, 5] : List Nat).zip [0, 4, 13, 14]) ∧
     (∀ i, i < ([0, 4, 13, 14] : List Nat).length →
       ∃ u, ([0, 4, 13, 14] : List Nat).getD i 0 =
         scripted [0, 0, 3, 4, 4, 13, 5, 14] u
           (emission.getD (([0, 3, 4, 5] : List Nat).getD i 0) []))) := by
  have hgen : generate initial transition emission
      (scripted [0, 0, 3, 4, 4, 13, 5, 14]) 8 =
      .ok [0, 3, 4, 5] [0, 4, 13, 14] := by decide
  exact ⟨hgen, C2_follows_spec_algorithm _ _ _ _ 8 _ _ hgen⟩

/-- C5: scripting the draws Subject (0), I (0), Verb (3), likes (4),
Object (4), dogs (13), `<EOS>` (5), `.` (14) makes `generate` on the
notebook tables return exactly `h_total = [0, 3, 4, 5]` and
`v_total = [0, 4, 13, 14]`; joining the observation labels with spaces
renders `I likes dogs .`; and every scripted draw has positive probability
in the distribution it was drawn from. -/
theorem C5_scenario :
    generate initial transition emission (scripted [0, 0, 3, 4, 4, 13, 5, 14]) 8 =
      .ok [0, 3, 4, 5] [0, 4, 13, 14] ∧
    render [0, 4, 13, 14] = "I likes dogs ." ∧
    (0 < initial.getD 0 0 ∧
     0 < (emission.getD 0 []).getD 0 0 ∧
     0 < (transition.getD 0 []).getD 3 0 ∧
     0 < (emission.getD 3 []).getD 4 0 ∧
     0 < (transition.getD 3 []).getD 4 0 ∧
     0 < (emission.getD 4 []).getD 13 0 ∧
     0 < (transition.getD 4 []).getD 5 0 ∧
     0 < (emission.getD 5 []).getD 14 0) := by
  refine ⟨by decide, rfl, ?_⟩
  rw [initial_eq, transition_eq, emission_eq]
  decide

/-- C7: `generate` is deterministic in its random source: two calls on the
same tables whose samplers produce the identical sequence of draws return
identical results. -/
theorem C7_deterministic (ini : List ℚ) (T E : List (List ℚ))
    (s1 s2 : Sampler) (fuel : Nat)
    (hse : ∀ (t : Nat) (p : List ℚ), s1 t p = s2 t p) :
    generate ini T E s1 fuel = generate ini T E s2 fuel := by
  unfold generate
  rw [hse]
  exact genFrom_congr T E s1 s2 hse fuel 1 _

theorem C7_witness :
    (∀ (t : Nat) (p : List ℚ),
      scripted [0, 0, 3, 4, 4, 13, 5, 14] t p =
        scripted [0, 0, 3, 4, 4, 13, 5, 14] t p) ∧
    generate initial transition emission (scripted [0, 0, 3, 4, 4, 13, 5, 14]) 8 =
      generate initial transition emission (scripted [0, 0, 3, 4, 4, 13, 5, 14]) 8 :=
  ⟨fun _ _ => rfl,
   C7_deterministic initial transition emission _ _ 8 (fun _ _ => rfl)⟩

/-- C8: the transition row of Object (index 4) has a single nonzero entry
1.0 at `<EOS>` (index 5), so under a positivity-respecting sampler every
occurrence of state 4 in a terminating run is followed by state 5; and the
emission row of `<EOS>` puts probability 1 on the end marker (index 14), so
whenever the state is 5 the aligned observation is 14. -/
theorem C8_deterministic_transition (s : Sampler) (fuel : Nat)
    (hs vs : List Nat) (hps : PosSampler s)
    (hok : generate initial transition emission s fuel = .ok hs vs) :
    (∀ i, i + 1 < hs.length → hs.getD i 0 = 4 → hs.getD (i + 1) 0 = 5) ∧
    (∀ i, i < hs.length → hs.getD i 0 = 5 → vs.getD i 0 = 14) := by
  obtain ⟨m1, m2, m3, m4, m5, m6⟩ :=
    genFrom_master s hps fuel 1 _ hs vs (first_state_lt s hps) hok
  have hlen := (genFrom_shape transition emission s fuel 1 _ hs vs hok).1
  constructor
  · intro i hi h4
    have hpos := m6 i hi
    rw [h4] at hpos
    have hb : hs.getD (i + 1) 0 < 6 := m3 (i + 1) hi
    have key : ∀ j, j < 6 → 0 < (transition.getD 4 []).getD j 0 → j = 5 := by
      rw [transition_eq]; decide
    exact key _ hb hpos
  · intro i hi h5
    have hiv : i < vs.length := hlen ▸ hi
    have hpos := m5 i hiv
    rw [h5] at hpos
    have hb : vs.getD i 0 < 15 := m4 i hiv
    have key : ∀ j, j < 15 → 0 < (emission.getD 5 []).getD j 0 → j = 14 := by
      rw [emission_eq]; decide
    exact key _ hb hpos

theorem C8_witness :
    (PosSampler (hintedSampler [0, 0, 3, 4, 4, 13, 5, 14]) ∧
      generate initial transition emission
        (hintedSampler [0, 0, 3, 4, 4, 13, 5, 14]) 8 =
        .ok [0, 3, 4, 5] [0, 4, 13, 14]) ∧
    ((∀ i, i + 1 < ([0, 3, 4, 5] : List Nat).length →
        ([0, 3, 4, 5] : List Nat).getD i 0 = 4 →
        ([0, 3, 4, 5] : List Nat).getD (i + 1) 0 = 5) ∧
     (∀ i, i < ([0, 3, 4, 5] : List Nat).length →
        ([0, 3, 4, 5] : List Nat).getD i 0 = 5 →
        ([0, 4, 13, 14] : List Nat).getD i 0 = 14)) := by
  have hgen : generate initial transition emission
      (hintedSampler [0, 0, 3, 4, 4, 13, 5, 14]) 8 =
      .ok [0, 3, 4, 5] [0, 4, 13, 14] := by
    rw [initial_eq, transition_eq, emission_eq]; decide
  exact ⟨⟨posSampler_hinted _, hgen⟩,
    C8_deterministic_transition _ 8 _ _ (posSampler_hinted _) hgen⟩

/-- C9: although `transition` has only 5 rows for 6 states, `generate`
never indexes it out of bounds: `transition[h]` is evaluated only inside
the loop, where the guard gives `h ≠ 5`, and a positivity-respecting
sampler keeps every sampled state below 6, hence `h < 5`. -/
theorem C9_transition_in_bounds (s : Sampler) (fuel : Nat)
    (hps : PosSampler s) :
    generate initial transition emission s fuel ≠ .transOOB :=
  genFrom_no_transOOB s hps fuel 1 _ (first_state_lt s hps)

theorem C9_witness :
    PosSampler (hintedSampler [0, 0, 3, 4, 4, 13, 5, 14]) ∧
    generate initial transition emission
      (hintedSampler [0, 0, 3, 4, 4, 13, 5, 14]) 8 ≠ .transOOB :=
  ⟨posSampler_hinted _,
   C9_transition_in_bounds (hintedSampler [0, 0, 3, 4, 4, 13, 5, 14]) 8
     (posSampler_hinted _)⟩

/-- C10: every terminating call of `generate` returns two lists of equal
length, at least 1, so zipping them into (state, observation) pairs is
well-defined with no leftover element. -/
theorem C10_equal_lengths (ini : List ℚ) (T E : List (List ℚ))
    (s : Sampler) (fuel : Nat) (hs vs : List Nat)
    (hok : generate ini T E s fuel = .ok hs vs) :
    hs.length = vs.length ∧ 1 ≤ hs.length := by
  obtain ⟨l1, l2, _, _⟩ := genFrom_shape T E s fuel 1 _ hs vs hok
  exact ⟨l1, l2⟩

theorem C10_witness :
    generate initial transition emission (scripted [0, 0, 3, 4, 4, 13, 5, 14]) 8 =
      .ok [0, 3, 4, 5] [0, 4, 13, 14] ∧
    (([0, 3, 4, 5] : List Nat).length = ([0, 4, 13, 14] : List Nat).length ∧
     1 ≤ ([0, 3, 4, 5] : List Nat).length) := by
  have hgen : generate initial transition emission
      (scripted [0, 0, 3, 4, 4, 13, 5, 14]) 8 =
      .ok [0, 3, 4, 5] [0, 4, 13, 14] := by decide
  exact ⟨hgen, C10_equal_lengths _ _ _ _ 8 _ _ hgen⟩

/-- C6: the notebook parameter tables satisfy invariant I1: every entry of
`initial`, `transition` and `emission` is nonnegative, the single row of
`initial` sums to 1, each of the 5 rows of `transition` sums to 1, and each
of the 6 rows of `emission` sums to 1 — exactly 1 as rationals, hence also
within the tolerance 1e-6. -/
theorem C6_tables_row_stochastic :
    (∀ x ∈ initial, 0 ≤ x) ∧
    (∀ row ∈ transition, ∀ x ∈ row, 0 ≤ x) ∧
    (∀ row ∈ emission, ∀ x ∈ row, 0 ≤ x) ∧
    initial.length = 6 ∧ transition.length = 5 ∧ emission.length = 6 ∧
    initial.sum = 1 ∧
    (∀ row ∈ transition, row.sum = 1) ∧
    (∀ row ∈ emission, row.sum = 1) ∧
    |initial.sum - 1| ≤ tol ∧
    (∀ row ∈ transition, |row.sum - 1| ≤ tol) ∧
    (∀ row ∈ emission, |row.sum - 1| ≤ tol) := by
  have hts : ∀ row ∈ transition, row.sum = 1 := by
    intro row hrow; fin_cases hrow <;> norm_num
  have hes : ∀ row ∈ emission, row.sum = 1 := by
    intro row hrow; fin_cases hrow <;> norm_num
  have his : initial.sum = 1 := by norm_num [initial]
  refine ⟨?_, ?_, ?_, rfl, rfl, rfl, his, hts, hes, ?_, ?_, ?_⟩
  · rw [initial_eq]; decide
  · rw [transition_eq]; decide
  · rw [emission_eq]; decide
  · rw [his]; norm_num [tol]
  · intro row hrow; rw [hts row hrow]; norm_num [tol]
  · intro row hrow; rw [hes row hrow]; norm_num [tol]

/-! ### Parameter Table Validator

The repository contains no validator; the spec (§4.1, §7) specifies one.
Everything in this section is modelled from the spec: the contract
`validate(initial, transition, emission, terminal_index) ->
Result<ValidatedParams, ValidationError>` with the four checks (dimensional
consistency, non-negativity, row sums, reachability of the terminal index)
performed in order and short-circuiting on first failure. -/

/-- Which dimensional-consistency check failed. -/
inductive DimCheck
  | transRows
  | transCols
  | emisRows
  | emisCols
deriving DecidableEq

/-- Which table an offending probability entry belongs to. -/
inductive TableName
  | initialTable
  | transitionTable
  | emissionTable
deriving DecidableEq

/-- Modelled from the spec: the error kinds of §7 that validation can
produce (`GenerationLengthExceeded` belongs to the optional generation
cutoff, not to validation).  `DimensionMismatch` names the failed shape
check; `InvalidProbability` names the offending table and row index. -/
inductive ValidationError
  | DimensionMismatch (which : DimCheck)
  | InvalidProbability (table : TableName) (row : Nat)
  | UnreachableTerminal
deriving DecidableEq

/-- Modelled from the spec: the opaque value wrapping the same tables plus
the cached terminal index, returned on successful validation. -/
structure ValidatedParams where
  ini : List ℚ
  trans : List (List ℚ)
  emis : List (List ℚ)
  terminal : Nat
deriving DecidableEq

/-- Check 1 (dimensional consistency): with `N = len(initial)` and
`M` the emission row width, the transition table has `N` or `N - 1` rows
of width `N`, and the emission table has `N` rows of width `M`. -/
def checkDims (ini : List ℚ) (T E : List (List ℚ)) : Option ValidationError :=
  if ¬(T.length = ini.length ∨ T.length = ini.length - 1) then
    some (.DimensionMismatch .transRows)
  else if ¬(∀ row ∈ T, row.length = ini.length) then
    some (.DimensionMismatch .transCols)
  else if ¬(E.length = ini.length) then
    some (.DimensionMismatch .emisRows)
  else if ¬(∀ row ∈ E, row.length = (E.headD []).length) then
    some (.DimensionMismatch .emisCols)
  else none

/-- A row has only nonnegative entries. -/
def rowNonneg (row : List ℚ) : Bool := row.all (fun x => decide (0 ≤ x))

/-- Check 2 (non-negativity of every entry in all three tables), reporting
the first offending row. -/
def checkNonneg (ini : List ℚ) (T E : List (List ℚ)) : Option ValidationError :=
  if rowNonneg ini then
    match (List.range T.length).find? (fun i => ! rowNonneg (T.getD i [])) with
    | some i => some (.InvalidProbability .transitionTable i)
    | none =>
      match (List.range E.length).find? (fun i => ! rowNonneg (E.getD i [])) with
      | some i => some (.InvalidProbability .emissionTable i)
      | none => none
  else some (.InvalidProbability .initialTable 0)

/-- A row sums to 1 within the tolerance of I1. -/
def rowSumOk (row : List ℚ) : Bool := decide (|row.sum - 1| ≤ tol)

/-- Check 3 (row sums): `initial` and every emission row sum to 1 within
tolerance; every transition row does too, except the terminal row when the
transition table carries all `N` rows. -/
def checkRowSums (ini : List ℚ) (T E : List (List ℚ)) (k : Nat) :
    Option ValidationError :=
  if rowSumOk ini then
    match (List.range T.length).find?
        (fun i => !(T.length == ini.length && i == k) && ! rowSumOk (T.getD i [])) with
    | some i => some (.InvalidProbability .transitionTable i)
    | none =>
      match (List.range E.length).find? (fun i => ! rowSumOk (E.getD i [])) with
      | some i => some (.InvalidProbability .emissionTable i)
      | none => none
  else some (.InvalidProbability .initialTable 0)

/-- The directed graph of §4.1 check 4: an edge from state `i` to state `j`
iff the transition entry is `> 0`. -/
def posEdge (T : List (List ℚ)) (i j : Nat) : Prop :=
  0 < (T.getD i []).getD j 0

instance (T : List (List ℚ)) (i j : Nat) : Decidable (posEdge T i j) :=
  inferInstanceAs (Decidable (0 < (T.getD i []).getD j 0))

/-- The states carrying positive initial probability. -/
def support (ini : List ℚ) : Finset Nat :=
  (Finset.range ini.length).filter (fun i => 0 < ini.getD i 0)

/-- One round of the forward closure: add every state of the alphabet that
has a positive-probability edge from the set. -/
def stepSet (T : List (List ℚ)) (N : Nat) (S : Finset Nat) : Finset Nat :=
  S ∪ (Finset.range N).filter (fun j => ∃ i ∈ S, posEdge T i j)

/-- The forward closure over positive-probability transitions, starting
from the support of the initial distribution (breadth-first reachability;
`N + 1` rounds reach the fixed point since the sets grow inside
`range N`). -/
def reachSet (ini : List ℚ) (T : List (List ℚ)) : Finset Nat :=
  (stepSet T ini.length)^[ini.length + 1] (support ini)

/-- Check 4 (reachability of the terminal index from any state with
positive initial probability). -/
def checkReach (ini : List ℚ) (T : List (List ℚ)) (k : Nat) :
    Option ValidationError :=
  if k ∈ reachSet ini T then none else some .UnreachableTerminal

/-- Modelled from the spec: `validate(initial, transition, emission,
terminal_index)`, performing the four checks in order, short-circuiting on
the first failure, and wrapping the tables on success. -/
def validate (ini : List ℚ) (T E : List (List ℚ)) (k : Nat) :
    Except ValidationError ValidatedParams :=
  match checkDims ini T E with
  | some e => .error e
  | none =>
    match checkNonneg ini T E with
    | some e => .error e
    | none =>
      match checkRowSums ini T E k with
      | some e => .error e
      | none =>
        match checkReach ini T k with
        | some e => .error e
        | none => .ok ⟨ini, T, E, k⟩

/-! ### Semantic forms of the four checks -/

/-- Semantic form of check 1. -/
def DimsOk (ini : List ℚ) (T E : List (List ℚ)) : Prop :=
  (T.length = ini.length ∨ T.length = ini.length - 1) ∧
  (∀ row ∈ T, row.length = ini.length) ∧
  E.length = ini.length ∧
  (∀ row ∈ E, row.length = (E.headD []).length)

/-- Semantic form of check 2. -/
def NonnegOk (ini : List ℚ) (T E : List (List ℚ)) : Prop :=
  (∀ x ∈ ini, 0 ≤ x) ∧ (∀ row ∈ T, ∀ x ∈ row, 0 ≤ x) ∧
  (∀ row ∈ E, ∀ x ∈ row, 0 ≤ x)

/-- Semantic form of check 3. -/
def RowSumsOk (ini : List ℚ) (T E : List (List ℚ)) (k : Nat) : Prop :=
  |ini.sum - 1| ≤ tol ∧
  (∀ i, i < T.length → ¬(T.length = ini.length ∧ i = k) →
    |(T.getD i []).sum - 1| ≤ tol) ∧
  (∀ i, i < E.length → |(E.getD i []).sum - 1| ≤ tol)

/-- Semantic form of check 4: a positive-probability path from some state
of positive initial probability into the terminal index. -/
def TerminalReachable (ini : List ℚ) (T : List (List ℚ)) (k : Nat) : Prop :=
  ∃ i, 0 < ini.getD i 0 ∧ Relation.ReflTransGen (posEdge T) i k

/-- A row of table `tb` (at index `r` for the matrices) contains a negative
entry. -/
def NonnegOffends (ini : List ℚ) (T E : List (List ℚ)) :
    TableName → Nat → Prop
  | .initialTable, _ => ∃ x ∈ ini, x < 0
  | .transitionTable, r => ∃ x ∈ T.getD r [], x < 0
  | .emissionTable, r => ∃ x ∈ E.getD r [], x < 0

/-- A row of table `tb` (at index `r` for the matrices) fails the
row-sum-to-1 tolerance. -/
def SumOffends (ini : List ℚ) (T E : List (List ℚ)) :
    TableName → Nat → Prop
  | .initialTable, _ => ¬ |ini.sum - 1| ≤ tol
  | .transitionTable, r => ¬ |(T.getD r []).sum - 1| ≤ tol
  | .emissionTable, r => ¬ |(E.getD r []).sum - 1| ≤ tol

/-! ### Correctness of the individual checks -/

theorem forall_mem_iff_getD {α : Type} (l : List α) (d : α) (P : α → Prop) :
    (∀ x ∈ l, P x) ↔ ∀ i, i < l.length → P (l.getD i d) := by
  constructor
  · intro h i hi
    rw [List.getD_eq_getElem _ _ hi]
    exact h _ (List.getElem_mem hi)
  · intro h x hx
    obtain ⟨i, hi, rfl⟩ := List.mem_iff_getElem.mp hx
    have := h i hi
    rwa [List.getD_eq_getElem _ _ hi] at this

theorem rowNonneg_iff (row : List ℚ) :
    rowNonneg row = true ↔ ∀ x ∈ row, 0 ≤ x := by
  simp [rowNonneg, List.all_eq_true]

theorem rowSumOk_iff (row : List ℚ) :
    rowSumOk row = true ↔ |row.sum - 1| ≤ tol := by
  simp [rowSumOk]

theorem checkDims_none_iff (ini : List ℚ) (T E : List (List ℚ)) :
    checkDims ini T E = none ↔ DimsOk ini T E := by
  unfold checkDims DimsOk
  split_ifs with h1 h2 h3 h4 <;> simp_all

theorem checkDims_shape (ini : List ℚ) (T E : List (List ℚ)) :
    checkDims ini T E = none ∨
      ∃ w, checkDims ini T E = some (.DimensionMismatch w) := by
  unfold checkDims
  split_ifs <;> simp

theorem checkReach_none_iff (ini : List ℚ) (T : List (List ℚ)) (k : Nat) :
    checkReach ini T k = none ↔ k ∈ reachSet ini T := by
  unfold checkReach
  split_ifs with h <;> simp_all

theorem find_range_none_iff (n : Nat) (p : Nat → Bool) :
    (List.range n).find? p = none ↔ ∀ i, i < n → p i = false := by
  rw [List.find?_eq_none]
  constructor
  · intro h i hi
    have := h i (List.mem_range.mpr hi)
    simpa using this
  · intro h i hi
    rw [List.mem_range] at hi
    simp [h i hi]

theorem checkNonneg_none_iff (ini : List ℚ) (T E : List (List ℚ)) :
    checkNonneg ini T E = none ↔ NonnegOk ini T E := by
  constructor
  · intro h
    rw [checkNonneg] at h
    by_cases h1 : rowNonneg ini = true
    · rw [if_pos h1] at h
      cases hT : (List.range T.length).find?
          (fun i => ! rowNonneg (T.getD i [])) with
      | some i => rw [hT] at h; simp at h
      | none =>
        rw [hT] at h
        cases hE : (List.range E.length).find?
            (fun i => ! rowNonneg (E.getD i [])) with
        | some i => rw [hE] at h; simp at h
        | none =>
          refine ⟨(rowNonneg_iff ini).mp h1, ?_, ?_⟩
          · rw [forall_mem_iff_getD T []]
            intro i hi
            have := (find_range_none_iff _ _).mp hT i hi
            simp only [Bool.not_eq_false'] at this
            exact (rowNonneg_iff _).mp this
          · rw [forall_mem_iff_getD E []]
            intro i hi
            have := (find_range_none_iff _ _).mp hE i hi
            simp only [Bool.not_eq_false'] at this
            exact (rowNonneg_iff _).mp this
    · rw [if_neg h1] at h; simp at h
  · intro hok
    obtain ⟨hni, hnT, hnE⟩ := hok
    rw [checkNonneg, if_pos ((rowNonneg_iff ini).mpr hni)]
    have hT : (List.range T.length).find?
        (fun i => ! rowNonneg (T.getD i [])) = none := by
      rw [find_range_none_iff]
      intro i hi
      have := (forall_mem_iff_getD T [] _).mp hnT i hi
      simp only [Bool.not_eq_false']
      exact (rowNonneg_iff _).mpr this
    rw [hT]
    have hE : (List.range E.length).find?
        (fun i => ! rowNonneg (E.getD i [])) = none := by
      rw [find_range_none_iff]
      intro i hi
      have := (forall_mem_iff_getD E [] _).mp hnE i hi
      simp only [Bool.not_eq_false']
      exact (rowNonneg_iff _).mpr this
    rw [hE]

theorem checkNonneg_some_offends (ini : List ℚ) (T E : List (List ℚ))
    (e : ValidationError) (h : checkNonneg ini T E = some e) :
    ∃ tb r, e = .InvalidProbability tb r ∧ NonnegOffends ini T E tb r := by
  rw [checkNonneg] at h
  by_cases h1 : rowNonneg ini = true
  · rw [if_pos h1] at h
    cases hT : (List.range T.length).find?
        (fun i => ! rowNonneg (T.getD i [])) with
    | some i =>
      rw [hT] at h
      cases h
      refine ⟨.transitionTable, i, rfl, ?_⟩
      have hp := List.find?_some hT
      simp only [Bool.not_eq_true'] at hp
      have hno : ¬ ∀ x ∈ T.getD i [], 0 ≤ x := by
        rw [← rowNonneg_iff, hp]; simp
      push_neg at hno
      exact hno
    | none =>
      rw [hT] at h
      cases hE : (List.range E.length).find?
          (fun i => ! rowNonneg (E.getD i [])) with
      | some i =>
        rw [hE] at h
        cases h
        refine ⟨.emissionTable, i, rfl, ?_⟩
        have hp := List.find?_some hE
        simp only [Bool.not_eq_true'] at hp
        have hno : ¬ ∀ x ∈ E.getD i [], 0 ≤ x := by
          rw [← rowNonneg_iff, hp]; simp
        push_neg at hno
        exact hno
      | none => rw [hE] at h; simp at h
  · rw [if_neg h1] at h
    cases h
    refine ⟨.initialTable, 0, rfl, ?_⟩
    have hno : ¬ ∀ x ∈ ini, 0 ≤ x := by
      rw [← rowNonneg_iff]; exact h1
    push_neg at hno
    exact hno

theorem transSum_pred_false_iff (ini : List ℚ) (T : List (List ℚ)) (k i : Nat) :
    (!(T.length == ini.length && i == k) && ! rowSumOk (T.getD i [])) = false ↔
      (¬(T.length = ini.length ∧ i = k) → |(T.getD i []).sum - 1| ≤ tol) := by
  rw [← rowSumOk_iff]
  cases hb : (T.length == ini.length && i == k) <;>
    cases hr : rowSumOk (T.getD i []) <;>
      simp_all [Bool.and_eq_true, beq_iff_eq]

theorem checkRowSums_none_iff (ini : List ℚ) (T E : List (List ℚ)) (k : Nat) :
    checkRowSums ini T E k = none ↔ RowSumsOk ini T E k := by
  constructor
  · intro h
    rw [checkRowSums] at h
    by_cases h1 : rowSumOk ini = true
    · rw [if_pos h1] at h
      cases hT : (List.range T.length).find?
          (fun i => !(T.length == ini.length && i == k) &&
            ! rowSumOk (T.getD i [])) with
      | some i => rw [hT] at h; simp at h
      | none =>
        rw [hT] at h
        cases hE : (List.range E.length).find?
            (fun i => ! rowSumOk (E.getD i [])) with
        | some i => rw [hE] at h; simp at h
        | none =>
          refine ⟨(rowSumOk_iff ini).mp h1, ?_, ?_⟩
          · intro i hi hnk
            have := (find_range_none_iff _ _).mp hT i hi
            simp only [transSum_pred_false_iff] at this
            exact this hnk
          · intro i hi
            have := (find_range_none_iff _ _).mp hE i hi
            simp only [Bool.not_eq_false'] at this
            exact (rowSumOk_iff _).mp this
    · rw [if_neg h1] at h; simp at h
  · intro hok
    obtain ⟨hsi, hsT, hsE⟩ := hok
    rw [checkRowSums, if_pos ((rowSumOk_iff ini).mpr hsi)]
    have hT : (List.range T.length).find?
        (fun i => !(T.length == ini.length && i == k) &&
          ! rowSumOk (T.getD i [])) = none := by
      rw [find_range_none_iff]
      intro i hi
      simp only [transSum_pred_false_iff]
      exact hsT i hi
    rw [hT]
    have hE : (List.range E.length).find?
        (fun i => ! rowSumOk (E.getD i [])) = none := by
      rw [find_range_none_iff]
      intro i hi
      simp only [Bool.not_eq_false']
      exact (rowSumOk_iff _).mpr (hsE i hi)
    rw [hE]

theorem checkRowSums_some_offends (ini : List ℚ) (T E : List (List ℚ))
    (k : Nat) (e : ValidationError) (h : checkRowSums ini T E k = some e) :
    ∃ tb r, e = .InvalidProbability tb r ∧ SumOffends ini T E tb r := by
  rw [checkRowSums] at h
  by_cases h1 : rowSumOk ini = true
  · rw [if_pos h1] at h
    cases hT : (List.range T.length).find?
        (fun i => !(T.length == ini.length && i == k) &&
          ! rowSumOk (T.getD i [])) with
    | some i =>
      rw [hT] at h
      cases h
      refine ⟨.transitionTable, i, rfl, ?_⟩
      have hp := List.find?_some hT
      simp only [Bool.and_eq_true, Bool.not_eq_true'] at hp
      rw [SumOffends, ← rowSumOk_iff, hp.2]
      simp
    | none =>
      rw [hT] at h
      cases hE : (List.range E.length).find?
          (fun i => ! rowSumOk (E.getD i [])) with
      | some i =>
        rw [hE] at h
        cases h
        refine ⟨.emissionTable, i, rfl, ?_⟩
        have hp := List.find?_some hE
        simp only [Bool.not_eq_true'] at hp
        rw [SumOffends, ← rowSumOk_iff, hp]
        simp
      | none => rw [hE] at h; simp at h
  · rw [if_neg h1] at h
    cases h
    refine ⟨.initialTable, 0, rfl, ?_⟩
    rw [SumOffends, ← rowSumOk_iff]
    exact h1

/-! ### Correctness of the forward-closure reachability check -/

theorem support_subset_range (ini : List ℚ) :
    support ini ⊆ Finset.range ini.length :=
  Finset.filter_subset _ _

theorem subset_stepSet (T : List (List ℚ)) (N : Nat) (S : Finset Nat) :
    S ⊆ stepSet T N S :=
  Finset.subset_union_left

theorem stepSet_subset_range (T : List (List ℚ)) (N : Nat) (S : Finset Nat)
    (hS : S ⊆ Finset.range N) : stepSet T N S ⊆ Finset.range N :=
  Finset.union_subset hS (Finset.filter_subset _ _)

theorem iterate_subset_range (ini : List ℚ) (T : List (List ℚ)) :
    ∀ n, (stepSet T ini.length)^[n] (support ini) ⊆ Finset.range ini.length := by
  intro n
  induction n with
  | zero => exact support_subset_range ini
  | succ n ih =>
    rw [Function.iterate_succ_apply']
    exact stepSet_subset_range _ _ _ ih

/-- Soundness of the closure: everything it contains is reachable from the
support of the initial distribution. -/
theorem iterate_sound (ini : List ℚ) (T : List (List ℚ)) :
    ∀ n j, j ∈ (stepSet T ini.length)^[n] (support ini) →
      ∃ i, 0 < ini.getD i 0 ∧ Relation.ReflTransGen (posEdge T) i j := by
  intro n
  induction n with
  | zero =>
    intro j hj
    rw [Function.iterate_zero_apply, support, Finset.mem_filter] at hj
    exact ⟨j, hj.2, Relation.ReflTransGen.refl⟩
  | succ n ih =>
    intro j hj
    rw [Function.iterate_succ_apply', stepSet, Finset.mem_union] at hj
    cases hj with
    | inl hj => exact ih j hj
    | inr hj =>
      rw [Finset.mem_filter] at hj
      obtain ⟨i, hiS, hedge⟩ := hj.2
      obtain ⟨i0, h0, hpath⟩ := ih i hiS
      exact ⟨i0, h0, hpath.tail hedge⟩

/-- After `N + 1` rounds the closure is a fixed point of the step. -/
theorem reachSet_fixpoint (ini : List ℚ) (T : List (List ℚ)) :
    stepSet T ini.length (reachSet ini T) = reachSet ini T := by
  by_cases hfix : ∃ m, m ≤ ini.length ∧
      stepSet T ini.length ((stepSet T ini.length)^[m] (support ini)) =
        (stepSet T ini.length)^[m] (support ini)
  · obtain ⟨m, hm, hf⟩ := hfix
    have h1 : reachSet ini T = (stepSet T ini.length)^[m] (support ini) := by
      rw [reachSet, show ini.length + 1 = (ini.length + 1 - m) + m by omega,
        Function.iterate_add_apply]
      exact Function.iterate_fixed hf _
    rw [h1, hf]
  · exfalso
    push_neg at hfix
    have hgrow : ∀ m, m ≤ ini.length + 1 →
        m ≤ ((stepSet T ini.length)^[m] (support ini)).card := by
      intro m
      induction m with
      | zero => intro _; exact Nat.zero_le _
      | succ m ihm =>
        intro hm
        have hss : (stepSet T ini.length)^[m] (support ini) ⊂
            (stepSet T ini.length)^[m + 1] (support ini) := by
          rw [Function.iterate_succ_apply']
          exact HasSubset.Subset.ssubset_of_ne (subset_stepSet _ _ _)
            (Ne.symm (hfix m (by omega)))
        have hlt := Finset.card_lt_card hss
        have := ihm (by omega)
        omega
    have hcard : ((stepSet T ini.length)^[ini.length + 1] (support ini)).card ≤
        ini.length := by
      have := Finset.card_le_card (iterate_subset_range ini T (ini.length + 1))
      simpa [Finset.card_range] using this
    have := hgrow (ini.length + 1) le_rfl
    omega

/-- Completeness of the closure: when the transition rows all have width
`N`, every state reachable from the support is in the closure. -/
theorem reach_complete (ini : List ℚ) (T : List (List ℚ))
    (hcols : ∀ row ∈ T, row.length = ini.length) (i k : Nat)
    (hpos : 0 < ini.getD i 0)
    (hpath : Relation.ReflTransGen (posEdge T) i k) :
    k ∈ reachSet ini T := by
  have hbase : i ∈ reachSet ini T := by
    have hsupp : i ∈ support ini := by
      rw [support, Finset.mem_filter, Finset.mem_range]
      exact ⟨pos_getD_lt hpos, hpos⟩
    have hsub : ∀ n, support ini ⊆
        (stepSet T ini.length)^[n] (support ini) := by
      intro n
      induction n with
      | zero => exact subset_rfl
      | succ n ih =>
        rw [Function.iterate_succ_apply']
        exact ih.trans (subset_stepSet _ _ _)
    exact hsub _ hsupp
  induction hpath with
  | refl => exact hbase
  | tail hab hbc ih =>
    rw [← reachSet_fixpoint ini T, stepSet, Finset.mem_union]
    right
    rw [Finset.mem_filter]
    refine ⟨?_, _, ih, hbc⟩
    rw [Finset.mem_range]
    have hc := pos_getD_lt hbc
    rename_i b c
    by_cases hb : b < T.length
    · have hrow := hcols (T.getD b [])
        (by rw [List.getD_eq_getElem _ _ hb]; exact List.getElem_mem hb)
      omega
    · rw [List.getD_eq_default _ _ (Nat.le_of_not_lt hb)] at hc
      simp at hc

/-- The closure decides semantic reachability (given consistent transition
row widths). -/
theorem reachSet_iff (ini : List ℚ) (T : List (List ℚ))
    (hcols : ∀ row ∈ T, row.length = ini.length) (k : Nat) :
    k ∈ reachSet ini T ↔ TerminalReachable ini T k := by
  constructor
  · intro h
    exact iterate_sound ini T _ k h
  · intro ht
    obtain ⟨i, hpos, hpath⟩ := ht
    exact reach_complete ini T hcols i k hpos hpath

/-! ### Behaviour of validate -/

theorem validate_ok_of (ini : List ℚ) (T E : List (List ℚ)) (k : Nat)
    (hd : DimsOk ini T E) (hn : NonnegOk ini T E) (hr : RowSumsOk ini T E k)
    (ht : k ∈ reachSet ini T) :
    validate ini T E k = .ok ⟨ini, T, E, k⟩ := by
  rw [validate, (checkDims_none_iff ini T E).mpr hd,
    (checkNonneg_none_iff ini T E).mpr hn,
    (checkRowSums_none_iff ini T E k).mpr hr,
    (checkReach_none_iff ini T k).mpr ht]

theorem validate_ok_inv (ini : List ℚ) (T E : List (List ℚ)) (k : Nat)
    (p : ValidatedParams) (h : validate ini T E k = .ok p) :
    DimsOk ini T E ∧ NonnegOk ini T E ∧ RowSumsOk ini T E k ∧
      k ∈ reachSet ini T := by
  rw [validate] at h
  cases h1 : checkDims ini T E with
  | some e => rw [h1] at h; simp at h
  | none =>
    rw [h1] at h
    cases h2 : checkNonneg ini T E with
    | some e => rw [h2] at h; simp at h
    | none =>
      rw [h2] at h
      cases h3 : checkRowSums ini T E k with
      | some e => rw [h3] at h; simp at h
      | none =>
        rw [h3] at h
        cases h4 : checkReach ini T k with
        | some e => rw [h4] at h; simp at h
        | none =>
          exact ⟨(checkDims_none_iff ini T E).mp h1,
            (checkNonneg_none_iff ini T E).mp h2,
            (checkRowSums_none_iff ini T E k).mp h3,
            (checkReach_none_iff ini T k).mp h4⟩

theorem validate_error_dims_of (ini : List ℚ) (T E : List (List ℚ)) (k : Nat)
    (h : ¬ DimsOk ini T E) :
    ∃ w, validate ini T E k = .error (.DimensionMismatch w) := by
  cases checkDims_shape ini T E with
  | inl h0 => exact absurd ((checkDims_none_iff ini T E).mp h0) h
  | inr h0 =>
    obtain ⟨w, hw⟩ := h0
    exact ⟨w, by rw [validate, hw]⟩

theorem validate_error_nonneg_of (ini : List ℚ) (T E : List (List ℚ)) (k : Nat)
    (hd : DimsOk ini T E) (h : ¬ NonnegOk ini T E) :
    ∃ tb r, validate ini T E k = .error (.InvalidProbability tb r) ∧
      NonnegOffends ini T E tb r := by
  cases hcn : checkNonneg ini T E with
  | none => exact absurd ((checkNonneg_none_iff ini T E).mp hcn) h
  | some e =>
    obtain ⟨tb, r, rfl, hoff⟩ := checkNonneg_some_offends ini T E e hcn
    exact ⟨tb, r,
      by rw [validate, (checkDims_none_iff ini T E).mpr hd, hcn], hoff⟩

theorem validate_error_rowsums_of (ini : List ℚ) (T E : List (List ℚ))
    (k : Nat) (hd : DimsOk ini T E) (hn : NonnegOk ini T E)
    (h : ¬ RowSumsOk ini T E k) :
    ∃ tb r, validate ini T E k = .error (.InvalidProbability tb r) ∧
      SumOffends ini T E tb r := by
  cases hcs : checkRowSums ini T E k with
  | none => exact absurd ((checkRowSums_none_iff ini T E k).mp hcs) h
  | some e =>
    obtain ⟨tb, r, rfl, hoff⟩ := checkRowSums_some_offends ini T E k e hcs
    exact ⟨tb, r,
      by rw [validate, (checkDims_none_iff ini T E).mpr hd,
        (checkNonneg_none_iff ini T E).mpr hn, hcs], hoff⟩

theorem validate_error_unreach_of (ini : List ℚ) (T E : List (List ℚ))
    (k : Nat) (hd : DimsOk ini T E) (hn : NonnegOk ini T E)
    (hr : RowSumsOk ini T E k) (ht : k ∉ reachSet ini T) :
    validate ini T E k = .error .UnreachableTerminal := by
  rw [validate, (checkDims_none_iff ini T E).mpr hd,
    (checkNonneg_none_iff ini T E).mpr hn,
    (checkRowSums_none_iff ini T E k).mpr hr,
    show checkReach ini T k = some .UnreachableTerminal by
      rw [checkReach, if_neg ht]]

/-! ### Claims about the validator -/

/-- C3: the spec-modelled `validate(initial, transition, emission,
terminal_index)` succeeds exactly when the four checks (dimensional
consistency, non-negativity, row sums, terminal reachability) all hold,
and on failure returns the error of the first failed check in that order:
a `DimensionMismatch` naming the failed shape check, an
`InvalidProbability` naming the offending table and row (which genuinely
offends), or `UnreachableTerminal`. -/
theorem C3_validate_contract (ini : List ℚ) (T E : List (List ℚ)) (k : Nat) :
    (validate ini T E k = .ok ⟨ini, T, E, k⟩ ↔
      DimsOk ini T E ∧ NonnegOk ini T E ∧ RowSumsOk ini T E k ∧
        k ∈ reachSet ini T) ∧
    (¬ DimsOk ini T E →
      ∃ w, validate ini T E k = .error (.DimensionMismatch w)) ∧
    (DimsOk ini T E → ¬ NonnegOk ini T E →
      ∃ tb r, validate ini T E k = .error (.InvalidProbability tb r) ∧
        NonnegOffends ini T E tb r) ∧
    (DimsOk ini T E → NonnegOk ini T E → ¬ RowSumsOk ini T E k →
      ∃ tb r, validate ini T E k = .error (.InvalidProbability tb r) ∧
        SumOffends ini T E tb r) ∧
    (DimsOk ini T E → NonnegOk ini T E → RowSumsOk ini T E k →
      ¬ TerminalReachable ini T k →
      validate ini T E k = .error .UnreachableTerminal) := by
  refine ⟨⟨fun h => validate_ok_inv ini T E k _ h, ?_⟩,
    validate_error_dims_of ini T E k,
    validate_error_nonneg_of ini T E k,
    validate_error_rowsums_of ini T E k, ?_⟩
  · rintro ⟨hd, hn, hr, ht⟩
    exact validate_ok_of ini T E k hd hn hr ht
  · intro hd hn hr hnt
    apply validate_error_unreach_of ini T E k hd hn hr
    rw [reachSet_iff ini T hd.2.1 k]
    exact hnt

theorem C3_witness :
    validate initial transition emission 5 =
      .ok ⟨initial, transition, emission, 5⟩ := by
  refine ((C3_validate_contract initial transition emission 5).1).mpr
    ⟨?_, ?_, ?_, ?_⟩
  · unfold DimsOk; decide
  · rw [initial_eq, transition_eq, emission_eq]; unfold NonnegOk; decide
  · unfold RowSumsOk
    have hts : ∀ row ∈ transition, row.sum = 1 := by
      intro row hrow; fin_cases hrow <;> norm_num
    have hes : ∀ row ∈ emission, row.sum = 1 := by
      intro row hrow; fin_cases hrow <;> norm_num
    refine ⟨?_, ?_, ?_⟩
    · have : initial.sum = 1 := by norm_num [initial]
      rw [this]; norm_num [tol]
    · intro i hi _
      have hmem : transition.getD i [] ∈ transition := by
        rw [List.getD_eq_getElem _ _ hi]; exact List.getElem_mem hi
      rw [hts _ hmem]; norm_num [tol]
    · intro i hi
      have hmem : emission.getD i [] ∈ emission := by
        rw [List.getD_eq_getElem _ _ hi]; exact List.getElem_mem hi
      rw [hes _ hmem]; norm_num [tol]
  · have hcols : ∀ row ∈ transition, row.length = initial.length := by decide
    have e1 : posEdge transition 0 3 := by rw [transition_eq]; decide
    have e2 : posEdge transition 3 4 := by rw [transition_eq]; decide
    have e3 : posEdge transition 4 5 := by rw [transition_eq]; decide
    have hpos : 0 < initial.getD 0 0 := by rw [initial_eq]; decide
    exact reach_complete initial transition hcols 0 5 hpos
      (Relation.ReflTransGen.tail
        (Relation.ReflTransGen.tail
          (Relation.ReflTransGen.tail Relation.ReflTransGen.refl e1) e2) e3)

/-- C4 counterexample: the claim fails as stated when the terminal index
itself carries positive initial probability.  With
`initial = [0, 1]`, `transition = [[1, 0]]` (state 0 loops to itself),
`emission = [[1], [1]]` and terminal index 1, the terminal has zero
incoming transition probability from every state (in particular from every
state reachable from the support of the initial distribution), yet
validation succeeds, because the terminal is in the support itself. -/
theorem C4_counterexample :
    (∀ i, (∃ i0, 0 < ([0, 1] : List ℚ).getD i0 0 ∧
        Relation.ReflTransGen (posEdge [[1, 0]]) i0 i) →
      (([[1, 0]] : List (List ℚ)).getD i []).getD 1 0 = 0) ∧
    validate [0, 1] [[1, 0]] [[1], [1]] 1 =
      .ok ⟨[0, 1], [[1, 0]], [[1], [1]], 1⟩ := by
  constructor
  · intro i _
    match i with
    | 0 => decide
    | n + 1 =>
      rw [List.getD_eq_default _ _ (by simp : ([[1, 0]] : List (List ℚ)).length ≤ n + 1)]
      rfl
  · apply validate_ok_of
    · unfold DimsOk; decide
    · unfold NonnegOk; decide
    · unfold RowSumsOk
      refine ⟨by norm_num [tol], ?_, ?_⟩
      · intro i hi _
        match i, hi with
        | 0, _ => norm_num [tol]
      · intro i hi
        match i, hi with
        | 0, _ => norm_num [tol]
        | 1, _ => norm_num [tol]
    · have hpos : 0 < ([0, 1] : List ℚ).getD 1 0 := by decide
      exact reach_complete [0, 1] [[1, 0]] (by decide) 1 1 hpos
        Relation.ReflTransGen.refl

/-- C4 (amended): if in addition the terminal index has zero initial
probability, then a transition table giving the terminal zero incoming
probability from every state reachable from the support of the initial
distribution is rejected with `UnreachableTerminal` (provided the earlier
checks pass, since validation short-circuits in order); validation is pure,
so no sampling happens before or during it. -/
theorem C4_reachability_gate (ini : List ℚ) (T E : List (List ℚ)) (k : Nat)
    (hd : DimsOk ini T E) (hn : NonnegOk ini T E) (hr : RowSumsOk ini T E k)
    (hk0 : ini.getD k 0 = 0)
    (hzero : ∀ i, (∃ i0, 0 < ini.getD i0 0 ∧
        Relation.ReflTransGen (posEdge T) i0 i) →
      (T.getD i []).getD k 0 = 0) :
    validate ini T E k = .error .UnreachableTerminal := by
  apply validate_error_unreach_of ini T E k hd hn hr
  rw [reachSet_iff ini T hd.2.1 k]
  rintro ⟨i0, hpos, hpath⟩
  cases Relation.ReflTransGen.cases_tail hpath with
  | inl heq =>
    rw [heq] at hk0
    rw [hk0] at hpos
    exact lt_irrefl 0 hpos
  | inr hex =>
    obtain ⟨c, hic, hck⟩ := hex
    have hzc := hzero c ⟨i0, hpos, hic⟩
    rw [posEdge, hzc] at hck
    exact lt_irrefl 0 hck

theorem C4_witness :
    validate [1, 0] [[1, 0]] [[1], [1]] 1 = .error .UnreachableTerminal := by
  apply C4_reachability_gate
  · unfold DimsOk; decide
  · unfold NonnegOk; decide
  · unfold RowSumsOk
    refine ⟨by norm_num [tol], ?_, ?_⟩
    · intro i hi _
      match i, hi with
      | 0, _ => norm_num [tol]
    · intro i hi
      match i, hi with
      | 0, _ => norm_num [tol]
      | 1, _ => norm_num [tol]
  · decide
  · intro i _
    match i with
    | 0 => decide
    | n + 1 =>
      rw [List.getD_eq_default _ _ (by simp : ([[1, 0]] : List (List ℚ)).length ≤ n + 1)]
      rfl

end HMMBasics
